import Mathlib

/-!
# A verification development for `timemap` (dastergon/golang-timemap)

The Go package `timemap` keeps, per string key, an append-only slice of
`(timestamp, value)` tuples and answers point-in-time lookups with the standard
library's `sort.Search`.

Modelling decisions.

* `time.Time` is an instant on a linear time line; it is modelled as an `Int`
  (for instance nanoseconds since the epoch) and `Time.After` is `>`.
* `interface{}` is modelled as `Option V`: `none` is the `nil` interface value.
* `map[string][]*tuple` is a finite map from `String` to `List (tuple V)`
  (`Finmap`): extensional, so two states are equal exactly when they hold the
  same keys with the same histories.  The tuples behind the pointers are never
  written after their creation, so they are modelled by value.
* A Go run-time panic is an explicit result: operations that index a slice
  return `Except Panic _`.
* Calls are made one at a time.  `Map.Set`, `Map.Get`, `Map.Contains`,
  `Map.Remove` and `Map.Keys` give the result of a call and the map it leaves when
  no other call is in progress.  The `Guarded` definitions follow the same bodies
  one statement at a time and thread the struct, with its `sync.RWMutex`, through
  every statement; concurrent callers are not modelled.
* `for k := range m` visits every key exactly once in an order the language
  leaves unspecified; `Keys` is therefore the finite set of all sequences the
  loop can build.
-/

namespace timemap

/-- An instant in time (`time.Time`), as a point on a linear time line. -/
abbrev Time := Int

/-- Go: `func (t Time) After(u Time) bool`, whether `t` is after `u`. -/
def Time.After (t u : Time) : Bool := decide (u < t)

/-- Run-time panics of the Go program. -/
inductive Panic where
  /-- Go: `index out of range [index] with length len`. -/
  | indexOutOfRange (index : Int) (len : Nat)
  deriving DecidableEq, Repr

/-- Go: `type tuple struct { timestamp time.Time; value interface{} }`. -/
structure tuple (V : Type) where
  timestamp : Time
  value : Option V
  deriving DecidableEq, Repr

/-- Go: `type Map struct { timemap map[string][]*tuple; lock sync.RWMutex }`. -/
structure Map (V : Type) where
  timemap : Finmap (fun _ : String => List (tuple V))

/-- Go: `func New() *Map`, a map with no keys. -/
def New (V : Type) : Map V := ⟨∅⟩

/-- Go slice indexing `s[i]` with a signed index: panics outside `0 ≤ i < len(s)`. -/
def index {α : Type} (s : List α) (i : Int) : Except Panic α :=
  if 0 ≤ i then
    match s[i.toNat]? with
    | some x => .ok x
    | none => .error (.indexOutOfRange i s.length)
  else .error (.indexOutOfRange i s.length)

/-- The loop of Go's `sort.Search`:
`for i < j { h := int(uint(i+j) >> 1); if !f(h) { i = h + 1 } else { j = h } }; return i`.
The midpoint is computed in `uint`, so it is exactly `(i + j) / 2` for all slice
lengths.  The predicate may panic, and a panic ends the search. -/
def searchLoop (f : Nat → Except Panic Bool) (i j : Nat) : Except Panic Nat :=
  if i < j then
    match f ((i + j) / 2) with
    | .error e => .error e
    | .ok b => if !b then searchLoop f ((i + j) / 2 + 1) j else searchLoop f i ((i + j) / 2)
  else .ok i
termination_by j - i
decreasing_by all_goals omega

/-- Go: `sort.Search(n, f)`, binary search started with `i, j := 0, n`. -/
def Search (n : Nat) (f : Nat → Except Panic Bool) : Except Panic Nat :=
  searchLoop f 0 n

/-- The predicate `Get` hands to `sort.Search`:
`func(i int) bool { return ent[i].timestamp.After(timestamp) }`. -/
def probe {V : Type} (ent : List (tuple V)) (timestamp : Time) (i : Nat) : Except Panic Bool :=
  (index ent (i : Int)).map (fun e => e.timestamp.After timestamp)

/-- Go: `func (t *Map) Contains(key string) bool`. -/
def Map.Contains {V : Type} (t : Map V) (key : String) : Bool :=
  (t.timemap.lookup key).isSome

/-- Go: `func (t *Map) Set(key string, value interface{}, timestamp time.Time) bool`.
Returns the boolean result together with the state after the call.  Reading an
absent key yields the nil slice, to which `append` adds the new tuple. -/
def Map.Set {V : Type} (t : Map V) (key : String) (value : Option V) (timestamp : Time) :
    Bool × Map V :=
  if key = "" then (false, t)
  else
    let pair : tuple V := ⟨timestamp, value⟩
    (true, ⟨t.timemap.insert key ((t.timemap.lookup key).getD [] ++ [pair])⟩)

/-- Go: `func (t *Map) Get(key string, timestamp time.Time) (value interface{}, ok bool)`.
The state is not changed; the result is the returned pair, or the panic raised
by one of the two slice index expressions. -/
def Map.Get {V : Type} (t : Map V) (key : String) (timestamp : Time) :
    Except Panic (Option V × Bool) :=
  if !t.Contains key then .ok (none, false)
  else
    let ent := (t.timemap.lookup key).getD []
    match Search ent.length (probe ent timestamp) with
    | .error e => .error e
    | .ok i =>
      match index ent ((i : Int) - 1) with
      | .error e => .error e
      | .ok e => .ok (e.value, true)

/-- Go: `func (t *Map) Remove(key string) bool`, with the state after the call. -/
def Map.Remove {V : Type} (t : Map V) (key : String) : Bool × Map V :=
  if !t.Contains key then (false, t)
  else (true, ⟨t.timemap.erase key⟩)

/-- The orders in which `for k := range t.timemap` can visit the keys: every
enumeration of the key set, each key once. -/
def rangeOrders {V : Type} (t : Map V) : Finset (List String) :=
  t.timemap.keys.val.lists

/-- The body of `Keys` run over one visiting order:
`keys := []string{}; for k := range ... { keys = append(keys, k) }; return keys`. -/
def keysLoop (order : List String) : List String :=
  order.foldl (fun keys k => keys ++ [k]) []

/-- Go: `func (t *Map) Keys() []string`: the slices the call can return, one per
visiting order of the map iteration.  The state is not changed. -/
def Map.Keys {V : Type} (t : Map V) : Finset (List String) :=
  (rangeOrders t).image keysLoop

/-- A history is sorted when timestamps never decrease along it. -/
def sortedByTime {V : Type} (ent : List (tuple V)) : Prop :=
  ent.Pairwise (fun a b => a.timestamp ≤ b.timestamp)

instance {V : Type} (ent : List (tuple V)) : Decidable (sortedByTime ent) := by
  unfold sortedByTime; infer_instance

/-- The history stored for a key: the slice read by `t.timemap[key]`, which is
the nil (empty) slice when the key is absent. -/
def Map.history {V : Type} (t : Map V) (key : String) : List (tuple V) :=
  (t.timemap.lookup key).getD []

/-- The example scenario: `Set("p", "a", t=100)`, `Set("p", "b", t=200)`,
`Set("p", "c", t=300)` on a new map. -/
def scenario : Map String :=
  ((((New String).Set "p" (some "a") 100).2.Set "p" (some "b") 200).2.Set "p" (some "c") 300).2

/-- A call of one of the public operations on a `Map`, with its arguments. -/
inductive Call (V : Type) where
  | Set (key : String) (value : Option V) (timestamp : Time)
  | Get (key : String) (timestamp : Time)
  | Contains (key : String)
  | Remove (key : String)
  | Keys

/-- The state after a call.  `Set` and `Remove` are the only operations whose
bodies assign to or delete from `t.timemap`; the bodies of `Get`, `Contains`
and `Keys` only read it, so they hand the state on as it is (also when `Get`
panics). -/
def Map.after {V : Type} (t : Map V) : Call V → Map V
  | .Set key value timestamp => (t.Set key value timestamp).2
  | .Get _ _ => t
  | .Contains _ => t
  | .Remove key => (t.Remove key).2
  | .Keys => t

/-- The state after a sequence of calls, made one after the other. -/
def Map.run {V : Type} (t : Map V) (calls : List (Call V)) : Map V :=
  calls.foldl Map.after t

/-- Whether a call is one of the reading operations `Get`, `Contains`, `Keys`. -/
def Call.reads {V : Type} : Call V → Bool
  | .Get _ _ => true
  | .Contains _ => true
  | .Keys => true
  | _ => false

/-- Whether a call respects the intended usage in state `t`: a `Set(k, v, ts)`
has `ts` not before the timestamp of the last entry currently stored for `k`
(any `ts` when nothing is stored); the other calls are not restricted. -/
def Call.monotoneAt {V : Type} (t : Map V) : Call V → Bool
  | .Set key _ timestamp =>
    match (t.history key).getLast? with
    | none => true
    | some e => decide (e.timestamp ≤ timestamp)
  | _ => true

/-- Whether every call of a sequence started in `t` respects the intended usage
in the state in which it is made. -/
def monotoneFrom {V : Type} (t : Map V) : List (Call V) → Bool
  | [] => true
  | c :: rest => c.monotoneAt t && monotoneFrom (t.after c) rest

/-- Non-monotonic inserts: `Set("p", "a", t=100)`, `Set("p", "b", t=300)`,
`Set("p", "c", t=200)` on a new map. -/
def unsortedScenario : Map String :=
  ((((New String).Set "p" (some "a") 100).2.Set "p" (some "b") 300).2.Set "p" (some "c") 200).2

/-- The state of the key enumeration test: `Set("name", "Pavlos", _)` followed by
`Set("country", "Greece", _)` on a new map. -/
def keysScenario : Map String :=
  (((New String).Set "name" (some "Pavlos") 1).2.Set "country" (some "Greece") 2).2

/-! ### The calls statement by statement, with the lock

The functions above give the result of a call and the map it leaves.  The
definitions below follow the bodies of the five methods one statement at a
time and thread the whole struct, `timemap` and `lock`, through every
statement, so that what a call leaves behind is computed from its body. -/

/-- The `sync.RWMutex` of a map: whether a writer holds it and how many readers
hold it. -/
structure RWMutex where
  writer : Bool
  readers : Nat
  deriving DecidableEq, Repr

/-- Go: `func (rw *RWMutex) Lock()`.  The caller gets the mutex when nobody holds
it; otherwise it does not get past the call (`none`). -/
def RWMutex.Lock (m : RWMutex) : Option RWMutex :=
  if m.writer = false ∧ m.readers = 0 then some ⟨true, 0⟩ else none

/-- Go: `func (rw *RWMutex) Unlock()`.  Unlocking a mutex that is not locked for
writing is a fatal run-time error (`none`). -/
def RWMutex.Unlock (m : RWMutex) : Option RWMutex :=
  if m.writer = true then some ⟨false, m.readers⟩ else none

/-- Go: `func (rw *RWMutex) RLock()`.  The caller does not get past the call
while a writer holds the mutex (`none`). -/
def RWMutex.RLock (m : RWMutex) : Option RWMutex :=
  if m.writer = true then none else some ⟨false, m.readers + 1⟩

/-- Go: `func (rw *RWMutex) RUnlock()`.  Unlocking a mutex that no reader holds
is a fatal run-time error (`none`). -/
def RWMutex.RUnlock (m : RWMutex) : Option RWMutex :=
  if m.readers = 0 then none else some ⟨m.writer, m.readers - 1⟩

/-- The whole Go struct `Map`: the `timemap` field and the `lock` field. -/
structure Guarded (V : Type) where
  data : Map V
  lock : RWMutex

/-- How a call ends: it returns a value, it panics, or it never returns (it
waits for the lock for ever, or the run-time aborts). -/
inductive Outcome (α : Type) where
  | returned (a : α)
  | panicked (p : Panic)
  | stuck

/-- The outcome of a computation that returns or panics. -/
def Outcome.ofExcept {α : Type} : Except Panic α → Outcome α
  | .ok a => .returned a
  | .error p => .panicked p

/-- Go map index expression `v, ok := t.timemap[key]`: the stored slice if the
key is present; reading leaves the struct as it is. -/
def Guarded.mapIndex {V : Type} (s : Guarded V) (key : String) :
    Option (List (tuple V)) × Guarded V :=
  (s.data.timemap.lookup key, s)

/-- Go map assignment `t.timemap[key] = val`. -/
def Guarded.mapAssign {V : Type} (s : Guarded V) (key : String) (val : List (tuple V)) :
    Guarded V :=
  ⟨⟨s.data.timemap.insert key val⟩, s.lock⟩

/-- Go: `delete(t.timemap, key)`. -/
def Guarded.mapDelete {V : Type} (s : Guarded V) (key : String) : Guarded V :=
  ⟨⟨s.data.timemap.erase key⟩, s.lock⟩

/-- Go: `t.lock.Lock(); defer t.lock.Unlock()` around a method body.  The
deferred `Unlock` runs when the body ends, by a return or by a panic. -/
def Guarded.withLock {V α : Type} (s : Guarded V)
    (body : Guarded V → Outcome α × Guarded V) : Outcome α × Guarded V :=
  match s.lock.Lock with
  | none => (.stuck, s)
  | some held =>
    match ((body ⟨s.data, held⟩).2).lock.Unlock with
    | none => (.stuck, (body ⟨s.data, held⟩).2)
    | some released => ((body ⟨s.data, held⟩).1, ⟨((body ⟨s.data, held⟩).2).data, released⟩)

/-- Go: `t.lock.RLock(); defer t.lock.RUnlock()` around a method body. -/
def Guarded.withRLock {V α : Type} (s : Guarded V)
    (body : Guarded V → Outcome α × Guarded V) : Outcome α × Guarded V :=
  match s.lock.RLock with
  | none => (.stuck, s)
  | some held =>
    match ((body ⟨s.data, held⟩).2).lock.RUnlock with
    | none => (.stuck, (body ⟨s.data, held⟩).2)
    | some released => ((body ⟨s.data, held⟩).1, ⟨((body ⟨s.data, held⟩).2).data, released⟩)

/-- Go: `func (t *Map) Contains(key string) bool`, statement by statement:
`_, ok := t.timemap[key]; return ok`.  It takes no lock. -/
def Guarded.Contains {V : Type} (s : Guarded V) (key : String) : Bool × Guarded V :=
  ((s.mapIndex key).1.isSome, (s.mapIndex key).2)

/-- Go: `func (t *Map) Set(...) bool`, statement by statement, under the write
lock: the guard on the empty key, then
`t.timemap[key] = append(t.timemap[key], pair)`. -/
def Guarded.Set {V : Type} (s : Guarded V) (key : String) (value : Option V)
    (timestamp : Time) : Outcome Bool × Guarded V :=
  s.withLock fun s1 =>
    if key = "" then (.returned false, s1)
    else
      let pair : tuple V := ⟨timestamp, value⟩
      (.returned true,
        (s1.mapIndex key).2.mapAssign key (((s1.mapIndex key).1).getD [] ++ [pair]))

/-- Go: `func (t *Map) Get(...) (value interface{}, ok bool)`, statement by
statement, under the write lock: the call of `Contains`, the read of
`t.timemap[key]`, the search and the index expression `ent[i-1]`. -/
def Guarded.Get {V : Type} (s : Guarded V) (key : String) (timestamp : Time) :
    Outcome (Option V × Bool) × Guarded V :=
  s.withLock fun s1 =>
    if !(s1.Contains key).1 then (.returned (none, false), (s1.Contains key).2)
    else
      let s2 := (s1.Contains key).2
      let ent := ((s2.mapIndex key).1).getD []
      let s3 := (s2.mapIndex key).2
      match Search ent.length (probe ent timestamp) with
      | .error e => (.panicked e, s3)
      | .ok i =>
        match index ent ((i : Int) - 1) with
        | .error e => (.panicked e, s3)
        | .ok e => (.returned (e.value, true), s3)

/-- Go: `func (t *Map) Remove(key string) bool`, statement by statement, under
the write lock. -/
def Guarded.Remove {V : Type} (s : Guarded V) (key : String) : Outcome Bool × Guarded V :=
  s.withLock fun s1 =>
    if !(s1.Contains key).1 then (.returned false, (s1.Contains key).2)
    else (.returned true, (s1.Contains key).2.mapDelete key)

/-- Go: `func (t *Map) Keys() []string`, statement by statement, under the read
lock, when the map iteration visits the keys in `order`: each round of the loop
runs `keys = append(keys, k)` and passes the struct on. -/
def Guarded.Keys {V : Type} (s : Guarded V) (order : List String) :
    Outcome (List String) × Guarded V :=
  s.withRLock fun s1 =>
    (.returned (order.foldl (fun acc k => (acc.1 ++ [k], acc.2)) (([] : List String), s1)).1,
      (order.foldl (fun acc k => (acc.1 ++ [k], acc.2)) (([] : List String), s1)).2)

/-- The struct after one call made statement by statement; `order` is the order
the map iteration takes if the call is `Keys`. -/
def Guarded.after {V : Type} (s : Guarded V) (c : Call V) (order : List String) : Guarded V :=
  match c with
  | .Set key value timestamp => (s.Set key value timestamp).2
  | .Get key timestamp => (s.Get key timestamp).2
  | .Contains key => (s.Contains key).2
  | .Remove key => (s.Remove key).2
  | .Keys => (s.Keys order).2

/-- The struct after a sequence of calls, each with its iteration order. -/
def Guarded.run {V : Type} (s : Guarded V) (steps : List (Call V × List String)) : Guarded V :=
  steps.foldl (fun acc step => acc.after step.1 step.2) s

/-! ## Slice indexing and the search predicate -/

theorem index_natCast {α : Type} (s : List α) (i : Nat) (h : i < s.length) :
    index s (i : Int) = .ok s[i] := by
  simp [index, h]

theorem index_pred {α : Type} (s : List α) (r : Nat) (h0 : 0 < r) (h : r ≤ s.length) :
    index s ((r : Int) - 1) = .ok (s.get ⟨r - 1, by omega⟩) := by
  have e : ((r : Int) - 1) = ((r - 1 : Nat) : Int) := by omega
  rw [e]
  exact index_natCast s (r - 1) (by omega)

theorem index_neg_one {α : Type} (s : List α) :
    index s (((0 : Nat) : Int) - 1) = .error (.indexOutOfRange (-1) s.length) := by
  simp [index]

theorem probe_eq {V : Type} (ent : List (tuple V)) (ts : Time) (i : Nat) (h : i < ent.length) :
    probe ent ts i = .ok (decide (ts < ent[i].timestamp)) := by
  simp [probe, index_natCast ent i h, Except.map, Time.After]

/-! ## Binary search -/

/-- Binary search returns a boundary of the predicate: the probe just before the
result (if any) is false and the probe at the result (if any) is true.  No order
on the predicate is assumed. -/
theorem searchLoop_boundary (f : Nat → Except Panic Bool) (p : Nat → Bool) (i j : Nat)
    (hij : i ≤ j) (hf : ∀ h, i ≤ h → h < j → f h = .ok (p h)) :
    ∃ r, searchLoop f i j = .ok r ∧ i ≤ r ∧ r ≤ j ∧
      (i < r → p (r - 1) = false) ∧ (r < j → p r = true) := by
  induction i, j using searchLoop.induct f with
  | case1 i j hlt e he =>
    exfalso
    have := hf ((i + j) / 2) (by omega) (by omega)
    rw [he] at this; cases this
  | case2 i j hlt b hb hnb ih =>
    have hm := hf ((i + j) / 2) (by omega) (by omega)
    rw [hb] at hm
    injection hm with hm
    obtain ⟨r, hr, h1, h2, h3, h4⟩ := ih (by omega) (fun h a c => hf h (by omega) c)
    refine ⟨r, ?_, by omega, h2, ?_, h4⟩
    · rw [searchLoop, if_pos hlt, hb]; simp only [hnb, if_true]; exact hr
    · intro _
      by_cases hc : (i + j) / 2 + 1 < r
      · exact h3 hc
      · have : r - 1 = (i + j) / 2 := by omega
        rw [this, ← hm]; simpa using hnb
  | case3 i j hlt b hb hnb ih =>
    have hm := hf ((i + j) / 2) (by omega) (by omega)
    rw [hb] at hm
    injection hm with hm
    obtain ⟨r, hr, h1, h2, h3, h4⟩ := ih (by omega) (fun h a c => hf h a (by omega))
    refine ⟨r, ?_, h1, by omega, h3, ?_⟩
    · rw [searchLoop, if_pos hlt, hb]; simp only [hnb]; exact hr
    · intro _
      by_cases hc : r < (i + j) / 2
      · exact h4 hc
      · have : r = (i + j) / 2 := by omega
        rw [this, ← hm]; simpa using hnb
  | case4 i j hlt =>
    refine ⟨i, ?_, le_refl _, hij, fun h => absurd h (lt_irrefl _), fun h => absurd h hlt⟩
    rw [searchLoop, if_neg hlt]

/-- On any history the search of `Get` returns an index `r ≤ len(ent)` such that
the entry before `r` (if any) is not after the query and the entry at `r`
(if any) is after it. -/
theorem Search_probe_boundary {V : Type} (ent : List (tuple V)) (ts : Time) :
    ∃ r, Search ent.length (probe ent ts) = .ok r ∧ r ≤ ent.length ∧
      (∀ h : 0 < r, ∀ h2 : r ≤ ent.length, (ent.get ⟨r - 1, by omega⟩).timestamp ≤ ts) ∧
      (∀ h : r < ent.length, ts < (ent.get ⟨r, h⟩).timestamp) := by
  obtain ⟨r, hr, -, h2, h3, h4⟩ := searchLoop_boundary (probe ent ts)
    (fun h => if hh : h < ent.length then decide (ts < ent[h].timestamp) else false)
    0 ent.length (Nat.zero_le _)
    (fun h _ hh => by rw [probe_eq ent ts h hh]; simp [hh])
  refine ⟨r, hr, h2, ?_, ?_⟩
  · intro h0 hle
    have := h3 h0
    have hlt : r - 1 < ent.length := by omega
    simp only [hlt, dite_true, decide_eq_false_iff_not, not_lt] at this
    exact this
  · intro hlt
    have := h4 hlt
    simp only [hlt, dite_true, decide_eq_true_eq] at this
    exact this

/-- On a sorted history the boundary splits the history: everything before it is
not after the query, everything from it on is after the query. -/
theorem Search_probe_sorted {V : Type} (ent : List (tuple V)) (ts : Time)
    (hs : sortedByTime ent) :
    ∃ r, Search ent.length (probe ent ts) = .ok r ∧ r ≤ ent.length ∧
      (∀ i (hi : i < ent.length), i < r → (ent.get ⟨i, hi⟩).timestamp ≤ ts) ∧
      (∀ i (hi : i < ent.length), r ≤ i → ts < (ent.get ⟨i, hi⟩).timestamp) := by
  obtain ⟨r, hr, hle, h1, h2⟩ := Search_probe_boundary ent ts
  have hp := List.pairwise_iff_getElem.mp hs
  refine ⟨r, hr, hle, ?_, ?_⟩
  · intro i hi hir
    have hb := h1 (by omega) hle
    by_cases hc : i = r - 1
    · subst hc; exact hb
    · have := hp i (r - 1) hi (by omega) (by omega)
      simp only [List.get_eq_getElem] at hb ⊢
      exact le_trans this hb
  · intro i hi hri
    have hb := h2 (by omega)
    by_cases hc : i = r
    · subst hc; exact hb
    · have := hp r i (by omega) hi (by omega)
      simp only [List.get_eq_getElem] at hb ⊢
      exact lt_of_lt_of_le hb this

/-! ## Unfolding `Get` on a present key -/

theorem Get_absent {V : Type} (t : Map V) (key : String) (ts : Time)
    (h : t.timemap.lookup key = none) : t.Get key ts = .ok (none, false) := by
  simp [Map.Get, Map.Contains, h]

theorem Get_present_pos {V : Type} (t : Map V) (key : String) (ts : Time)
    (ent : List (tuple V)) (h : t.timemap.lookup key = some ent) (r : Nat)
    (hr : Search ent.length (probe ent ts) = .ok r) (h0 : 0 < r) (hle : r ≤ ent.length) :
    t.Get key ts = .ok ((ent.get ⟨r - 1, by omega⟩).value, true) := by
  simp only [Map.Get, Map.Contains, h, Option.isSome_some, Bool.not_true, Option.getD_some, hr,
    index_pred ent r h0 hle]
  rfl

theorem Get_present_zero {V : Type} (t : Map V) (key : String) (ts : Time)
    (ent : List (tuple V)) (h : t.timemap.lookup key = some ent)
    (hr : Search ent.length (probe ent ts) = .ok 0) :
    t.Get key ts = .error (.indexOutOfRange (-1) ent.length) := by
  simp only [Map.Get, Map.Contains, h, Option.isSome_some, Bool.not_true, Option.getD_some, hr,
    index_neg_one]
  rfl

/-- On a sorted history, an index whose entry is not after the query while every
later entry is after it is the one `Get` reads. -/
theorem Get_eq_of_last {V : Type} (t : Map V) (key : String) (ts : Time)
    (ent : List (tuple V)) (h : t.timemap.lookup key = some ent) (hs : sortedByTime ent)
    (i : Nat) (hi : i < ent.length) (hle : (ent.get ⟨i, hi⟩).timestamp ≤ ts)
    (hgt : ∀ j (hj : j < ent.length), i < j → ts < (ent.get ⟨j, hj⟩).timestamp) :
    t.Get key ts = .ok ((ent.get ⟨i, hi⟩).value, true) := by
  obtain ⟨r, hr, hrle, h1, h2⟩ := Search_probe_sorted ent ts hs
  have hri : r = i + 1 := by
    rcases Nat.lt_trichotomy r (i + 1) with hlt | heq | hgt2
    · exact absurd (h2 i hi (by omega)) (not_lt.mpr hle)
    · exact heq
    · exact absurd (h1 (i + 1) (by omega) hgt2) (not_le.mpr (hgt (i + 1) (by omega) (by omega)))
  subst hri
  exact Get_present_pos t key ts ent h (i + 1) hr (by omega) hrle

/-- On a sorted history with at least one entry not after the query, the last
such entry exists. -/
theorem exists_last_not_after {V : Type} (ent : List (tuple V)) (ts : Time)
    (hs : sortedByTime ent) (hex : ∃ e ∈ ent, e.timestamp ≤ ts) :
    ∃ (i : Nat) (hi : i < ent.length), (ent.get ⟨i, hi⟩).timestamp ≤ ts ∧
      (∀ j (hj : j < ent.length), i < j → ts < (ent.get ⟨j, hj⟩).timestamp) ∧
      (∀ e ∈ ent, e.timestamp ≤ ts → e.timestamp ≤ (ent.get ⟨i, hi⟩).timestamp) := by
  obtain ⟨r, -, hrle, h1, h2⟩ := Search_probe_sorted ent ts hs
  obtain ⟨e, he, hets⟩ := hex
  obtain ⟨n, hn, rfl⟩ := List.getElem_of_mem he
  have hr0 : 0 < r := by
    by_contra hc
    exact absurd (h2 n hn (by omega)) (not_lt.mpr hets)
  refine ⟨r - 1, by omega, h1 (r - 1) (by omega) (by omega),
    fun j hj hij => h2 j hj (by omega), ?_⟩
  intro e he hets
  obtain ⟨m, hm, rfl⟩ := List.getElem_of_mem he
  have hmr : m < r := by
    by_contra hc
    exact absurd (h2 m hm (by omega)) (not_lt.mpr hets)
  by_cases hc : m = r - 1
  · subst hc; exact le_refl _
  · exact List.pairwise_iff_getElem.mp hs m (r - 1) hm (by omega) (by omega)

/-! ## The state after `Set` and `Remove` -/

theorem Set_fst {V : Type} (t : Map V) (k : String) (v : Option V) (ts : Time) :
    (t.Set k v ts).1 = !decide (k = "") := by
  unfold Map.Set; split <;> simp [*]

theorem Set_lookup_self {V : Type} (t : Map V) (k : String) (v : Option V) (ts : Time)
    (hk : k ≠ "") :
    (t.Set k v ts).2.timemap.lookup k = some (t.history k ++ [⟨ts, v⟩]) := by
  simp [Map.Set, hk, Map.history, Finmap.lookup_insert]

theorem Remove_lookup_self {V : Type} (t : Map V) (k : String) :
    (t.Remove k).2.timemap.lookup k = none := by
  unfold Map.Remove Map.Contains
  cases h : t.timemap.lookup k with
  | none => simpa using h
  | some ent => simp [Finmap.lookup_erase]

theorem New_lookup (V : Type) (k : String) : (New V).timemap.lookup k = none :=
  Finmap.lookup_empty k

theorem scenario_lookup :
    scenario.timemap.lookup "p" = some [⟨100, some "a"⟩, ⟨200, some "b"⟩, ⟨300, some "c"⟩] := by
  have hp : ("p" : String) ≠ "" := by decide
  unfold scenario
  rw [Set_lookup_self _ _ _ _ hp]
  unfold Map.history
  rw [Set_lookup_self _ _ _ _ hp]
  unfold Map.history
  rw [Set_lookup_self _ _ _ _ hp]
  unfold Map.history
  rw [New_lookup]
  rfl

/-- When every entry of a present key is after the query, the search boundary is
zero and `ent[i-1]` is evaluated at index `-1`: the call panics. -/
theorem Get_all_after {V : Type} (t : Map V) (key : String) (ts : Time)
    (ent : List (tuple V)) (h : t.timemap.lookup key = some ent)
    (hall : ∀ e ∈ ent, ts < e.timestamp) :
    t.Get key ts = .error (.indexOutOfRange (-1) ent.length) := by
  obtain ⟨r, hr, hrle, h1, -⟩ := Search_probe_boundary ent ts
  have hr0 : r = 0 := by
    by_contra hc
    have hpos : 0 < r := Nat.pos_of_ne_zero hc
    exact absurd (hall _ (List.get_mem ent (r - 1) (by omega))) (not_lt.mpr (h1 hpos hrle))
  subst hr0
  exact Get_present_zero t key ts ent h hr

theorem sortedByTime_append_singleton {V : Type} (ent : List (tuple V)) (e : tuple V)
    (hs : sortedByTime ent) (hlast : ∀ x, ent.getLast? = some x → x.timestamp ≤ e.timestamp) :
    sortedByTime (ent ++ [e]) ∧ ∀ x ∈ ent, x.timestamp ≤ e.timestamp := by
  have hall : ∀ x ∈ ent, x.timestamp ≤ e.timestamp := by
    intro x hx
    rcases List.eq_nil_or_concat ent with hnil | ⟨init, last, hcat⟩
    · subst hnil; cases hx
    · rw [List.concat_eq_append] at hcat
      subst hcat
      have hl := hlast last (by simp)
      rcases List.mem_append.mp hx with hin | hin
      · have := (List.pairwise_append.mp hs).2.2 x hin last (by simp)
        exact le_trans this hl
      · have : x = last := by simpa using hin
        subst this; exact hl
  refine ⟨?_, hall⟩
  unfold sortedByTime
  rw [List.pairwise_append]
  exact ⟨hs, List.pairwise_singleton _ _, fun a ha b hb => by
    have : b = e := by simpa using hb
    subst this; exact hall a ha⟩

theorem Set_lookup_other {V : Type} (t : Map V) (k : String) (v : Option V) (ts : Time)
    (k2 : String) (h : k2 ≠ k) :
    (t.Set k v ts).2.timemap.lookup k2 = t.timemap.lookup k2 := by
  unfold Map.Set
  split
  · rfl
  · exact Finmap.lookup_insert_of_ne _ h

theorem Contains_Set {V : Type} (t : Map V) (k : String) (v : Option V) (ts : Time)
    (k2 : String) (hk : k ≠ "") :
    (t.Set k v ts).2.Contains k2 = (decide (k2 = k) || t.Contains k2) := by
  by_cases h : k2 = k
  · subst h; simp [Map.Contains, Set_lookup_self t k2 v ts hk]
  · simp [Map.Contains, Set_lookup_other t k v ts k2 h, h]

/-! ## Key enumeration -/

theorem foldl_append_singleton (acc order : List String) :
    order.foldl (fun keys k => keys ++ [k]) acc = acc ++ order := by
  induction order generalizing acc with
  | nil => simp
  | cons k rest ih => simp [List.foldl_cons, ih]

/-- The loop of `Keys` returns the keys in the order the iteration visited them. -/
theorem keysLoop_eq (order : List String) : keysLoop order = order := by
  simp [keysLoop, foldl_append_singleton]

theorem mem_Keys_iff {V : Type} (t : Map V) (ks : List String) :
    ks ∈ t.Keys ↔ t.timemap.keys.val = (ks : Multiset String) := by
  simp only [Map.Keys, rangeOrders, Finset.mem_image, Multiset.mem_lists_iff, keysLoop_eq]
  constructor
  · rintro ⟨a, ha, rfl⟩; exact ha
  · intro h; exact ⟨ks, h, rfl⟩

/-- Every duplicate-free enumeration of the present keys is a possible result of
`Keys()`. -/
theorem mem_Keys_of_nodup {V : Type} (t : Map V) (ks : List String) (hn : ks.Nodup)
    (hmem : ∀ k, k ∈ ks ↔ t.Contains k = true) : ks ∈ t.Keys := by
  rw [mem_Keys_iff]
  refine (Multiset.Nodup.ext t.timemap.keys.nodup (Multiset.coe_nodup.mpr hn)).mpr ?_
  intro k
  rw [Finset.mem_val, Finmap.mem_keys, Multiset.mem_coe, hmem, Map.Contains,
    Finmap.lookup_isSome]

theorem Remove_lookup_other {V : Type} (t : Map V) (k k2 : String) (h : k2 ≠ k) :
    (t.Remove k).2.timemap.lookup k2 = t.timemap.lookup k2 := by
  unfold Map.Remove
  split
  · rfl
  · exact Finmap.lookup_erase_ne h

/-- The result of `Get` for a key depends only on what the map holds for that key. -/
theorem Get_congr {V : Type} (t u : Map V) (k : String) (ts : Time)
    (h : u.timemap.lookup k = t.timemap.lookup k) : u.Get k ts = t.Get k ts := by
  simp only [Map.Get, Map.Contains, h]

theorem keysScenario_Contains (k : String) :
    keysScenario.Contains k = true ↔ k = "country" ∨ k = "name" := by
  unfold keysScenario
  rw [Contains_Set _ _ _ _ _ (by decide), Contains_Set _ _ _ _ _ (by decide)]
  simp [Map.Contains, New_lookup]

/-! ## Sequences of calls -/

theorem Set_lookup {V : Type} (t : Map V) (k : String) (v : Option V) (ts : Time)
    (k2 : String) :
    (t.Set k v ts).2.timemap.lookup k2 =
      if k ≠ "" ∧ k2 = k then some (t.history k ++ [⟨ts, v⟩]) else t.timemap.lookup k2 := by
  by_cases hk : k = ""
  · simp [Map.Set, hk]
  · by_cases h2 : k2 = k
    · subst h2; simp [hk, Set_lookup_self t k2 v ts hk]
    · simp [h2, Set_lookup_other t k v ts k2 h2]

theorem Remove_lookup {V : Type} (t : Map V) (k k2 : String) :
    (t.Remove k).2.timemap.lookup k2 = if k2 = k then none else t.timemap.lookup k2 := by
  by_cases h2 : k2 = k
  · subst h2; simp [Remove_lookup_self]
  · simp [h2, Remove_lookup_other t k k2 h2]

theorem run_nil {V : Type} (t : Map V) : t.run [] = t := rfl

theorem run_cons {V : Type} (t : Map V) (c : Call V) (rest : List (Call V)) :
    t.run (c :: rest) = (t.after c).run rest := rfl

/-- A property of states that every call preserves holds after every sequence
of calls. -/
theorem run_preserves {V : Type} (P : Map V → Prop)
    (hstep : ∀ (t : Map V) (c : Call V), P t → P (t.after c))
    (t : Map V) (calls : List (Call V)) (h : P t) : P (t.run calls) := by
  induction calls generalizing t with
  | nil => exact h
  | cons c rest ih => exact ih (t.after c) (hstep t c h)

theorem after_reads {V : Type} (t : Map V) (c : Call V) (h : c.reads = true) :
    t.after c = t := by
  cases c <;> first | rfl | cases h

theorem run_reads {V : Type} (t : Map V) (calls : List (Call V))
    (h : ∀ c ∈ calls, c.reads = true) : t.run calls = t := by
  induction calls with
  | nil => rfl
  | cons c rest ih =>
    rw [run_cons, after_reads t c (h c (List.mem_cons_self _ _))]
    exact ih (fun c hc => h c (List.mem_cons_of_mem _ hc))

/-- The empty string is not a key after a call if it was not one before. -/
theorem after_empty_key {V : Type} (t : Map V) (c : Call V)
    (h : t.timemap.lookup "" = none) : (t.after c).timemap.lookup "" = none := by
  cases c with
  | Set k v ts =>
    show (t.Set k v ts).2.timemap.lookup "" = none
    rw [Set_lookup]
    split
    · rename_i hc; exact absurd hc.2.symm hc.1
    · exact h
  | Remove k =>
    show (t.Remove k).2.timemap.lookup "" = none
    rw [Remove_lookup]; split
    · rfl
    · exact h
  | Get k ts => exact h
  | Contains k => exact h
  | Keys => exact h

/-- No key holds an empty history after a call if none did before. -/
theorem after_nonempty_histories {V : Type} (t : Map V) (c : Call V)
    (h : ∀ k ent, t.timemap.lookup k = some ent → ent ≠ []) :
    ∀ k ent, (t.after c).timemap.lookup k = some ent → ent ≠ [] := by
  cases c with
  | Set k v ts =>
    intro k2 ent
    show (t.Set k v ts).2.timemap.lookup k2 = some ent → ent ≠ []
    rw [Set_lookup]
    split
    · intro he; injection he with he; subst he; simp
    · exact h k2 ent
  | Remove k =>
    intro k2 ent
    show (t.Remove k).2.timemap.lookup k2 = some ent → ent ≠ []
    rw [Remove_lookup]; split
    · intro he; cases he
    · exact h k2 ent
  | Get k ts => exact h
  | Contains k => exact h
  | Keys => exact h

/-- Every history is sorted after a call that respects the intended usage if
every history was sorted before. -/
theorem after_sorted {V : Type} (t : Map V) (c : Call V)
    (hm : c.monotoneAt t = true)
    (h : ∀ k ent, t.timemap.lookup k = some ent → sortedByTime ent) :
    ∀ k ent, (t.after c).timemap.lookup k = some ent → sortedByTime ent := by
  cases c with
  | Set k v ts =>
    intro k2 ent
    show (t.Set k v ts).2.timemap.lookup k2 = some ent → sortedByTime ent
    rw [Set_lookup]
    split
    · intro he; injection he with he; subst he
      have hsorted : sortedByTime (t.history k) := by
        unfold Map.history
        cases hl : t.timemap.lookup k with
        | none => simp [sortedByTime]
        | some old => exact h k old hl
      refine (sortedByTime_append_singleton (t.history k) ⟨ts, v⟩ hsorted ?_).1
      intro x hx
      simp only [Call.monotoneAt, hx, decide_eq_true_eq] at hm
      exact hm
    · exact h k2 ent
  | Remove k =>
    intro k2 ent
    show (t.Remove k).2.timemap.lookup k2 = some ent → sortedByTime ent
    rw [Remove_lookup]; split
    · intro he; cases he
    · exact h k2 ent
  | Get k ts => exact h
  | Contains k => exact h
  | Keys => exact h

theorem run_sorted {V : Type} (t : Map V) (calls : List (Call V))
    (hm : monotoneFrom t calls = true)
    (h : ∀ k ent, t.timemap.lookup k = some ent → sortedByTime ent) :
    ∀ k ent, (t.run calls).timemap.lookup k = some ent → sortedByTime ent := by
  induction calls generalizing t with
  | nil => exact h
  | cons c rest ih =>
    simp only [monotoneFrom, Bool.and_eq_true] at hm
    exact ih (t.after c) hm.2 (after_sorted t c hm.1 h)

theorem unsortedScenario_lookup :
    unsortedScenario.timemap.lookup "p"
      = some [⟨100, some "a"⟩, ⟨300, some "b"⟩, ⟨200, some "c"⟩] := by
  have hp : ("p" : String) ≠ "" := by decide
  unfold unsortedScenario
  rw [Set_lookup_self _ _ _ _ hp]
  unfold Map.history
  rw [Set_lookup_self _ _ _ _ hp]
  unfold Map.history
  rw [Set_lookup_self _ _ _ _ hp]
  unfold Map.history
  rw [New_lookup]
  rfl

/-- The binary search on the unsorted history at query time 250: the probes are
index 1 (300, after the query) and index 0 (100, not after), so the boundary is 1. -/
theorem unsortedScenario_Search :
    Search 3 (probe ([⟨100, some "a"⟩, ⟨300, some "b"⟩, ⟨200, some "c"⟩] : List (tuple String))
      250) = .ok 1 := by
  unfold Search
  rw [searchLoop]
  simp only [show (0 : Nat) < 3 by decide, if_true, show (0 + 3) / 2 = 1 by decide]
  rw [probe_eq _ _ 1 (by decide)]
  simp only [List.getElem_cons_succ, List.getElem_cons_zero, show ((250 : Time) < 300) by decide,
    decide_True, Bool.not_true, Bool.false_eq_true, if_false]
  rw [searchLoop]
  simp only [show (0 : Nat) < 1 by decide, if_true, show (0 + 1) / 2 = 0 by decide]
  rw [probe_eq _ _ 0 (by decide)]
  simp only [List.getElem_cons_zero, show ¬ ((250 : Time) < 100) by decide,
    decide_False, Bool.not_false, if_true]
  rw [searchLoop]
  simp

/-- In every result of `Keys()` a key occurs exactly when it is present. -/
theorem Keys_mem_iff_Contains {V : Type} (t : Map V) (ks : List String) (hks : ks ∈ t.Keys) :
    ∀ k, k ∈ ks ↔ t.Contains k = true := by
  have h := (mem_Keys_iff t ks).mp hks
  intro k
  have : k ∈ ks ↔ k ∈ t.timemap.keys := by
    rw [← Finset.mem_val, h]; exact Iff.rfl
  rw [this, Finmap.mem_keys, Map.Contains, Finmap.lookup_isSome]

/-- The empty string is not a key of any state reached from `New()`. -/
theorem run_New_empty_key (V : Type) (calls : List (Call V)) :
    ((New V).run calls).timemap.lookup "" = none :=
  run_preserves (fun t => t.timemap.lookup "" = none) after_empty_key (New V) calls
    (New_lookup V "")

/-! ## The statement-level calls -/

theorem withLock_state {V α : Type} (s : Guarded V)
    (body : Guarded V → Outcome α × Guarded V)
    (hbody : ∀ s1 : Guarded V, (body s1).2 = s1) : (s.withLock body).2 = s := by
  unfold Guarded.withLock
  cases hl : s.lock.Lock with
  | none => rfl
  | some held =>
    simp only [hbody]
    unfold RWMutex.Lock at hl
    split at hl
    · rename_i hfree
      injection hl with hl
      subst hl
      obtain ⟨data, ⟨w, r⟩⟩ := s
      simp only at hfree
      obtain ⟨rfl, rfl⟩ := hfree
      rfl
    · cases hl

theorem withLock_result {V α : Type} (s : Guarded V)
    (body : Guarded V → Outcome α × Guarded V)
    (hbody : ∀ s1 : Guarded V, (body s1).2 = s1) (hfree : s.lock = ⟨false, 0⟩) :
    (s.withLock body).1 = (body ⟨s.data, ⟨true, 0⟩⟩).1 := by
  unfold Guarded.withLock
  simp [hfree, RWMutex.Lock, hbody, RWMutex.Unlock]

theorem withRLock_state {V α : Type} (s : Guarded V)
    (body : Guarded V → Outcome α × Guarded V)
    (hbody : ∀ s1 : Guarded V, (body s1).2 = s1) : (s.withRLock body).2 = s := by
  obtain ⟨data, ⟨w, r⟩⟩ := s
  unfold Guarded.withRLock
  cases w <;> simp [RWMutex.RLock, RWMutex.RUnlock, hbody]

theorem withRLock_result {V α : Type} (s : Guarded V)
    (body : Guarded V → Outcome α × Guarded V)
    (hbody : ∀ s1 : Guarded V, (body s1).2 = s1) (hfree : s.lock = ⟨false, 0⟩) :
    (s.withRLock body).1 = (body ⟨s.data, ⟨false, 1⟩⟩).1 := by
  unfold Guarded.withRLock
  simp [hfree, RWMutex.RLock, hbody, RWMutex.RUnlock]

/-- The body of `Get` between `Lock` and the deferred `Unlock`. -/
theorem Get_body_state {V : Type} (key : String) (ts : Time) (s1 : Guarded V) :
    ((fun s1 : Guarded V =>
      if !(s1.Contains key).1 then
        ((Outcome.returned (none, false) : Outcome (Option V × Bool)), (s1.Contains key).2)
      else
        let s2 := (s1.Contains key).2
        let ent := ((s2.mapIndex key).1).getD []
        let s3 := (s2.mapIndex key).2
        match Search ent.length (probe ent ts) with
        | .error e => (.panicked e, s3)
        | .ok i =>
          match index ent ((i : Int) - 1) with
          | .error e => (.panicked e, s3)
          | .ok e => (.returned (e.value, true), s3)) s1).2 = s1 := by
  simp only [Guarded.Contains, Guarded.mapIndex]
  split
  · rfl
  · split
    · rfl
    · split <;> rfl

theorem Guarded_Get_state {V : Type} (s : Guarded V) (key : String) (ts : Time) :
    (s.Get key ts).2 = s :=
  withLock_state s _ (Get_body_state key ts)

theorem Guarded_Get_result {V : Type} (s : Guarded V) (key : String) (ts : Time)
    (hfree : s.lock = ⟨false, 0⟩) :
    (s.Get key ts).1 = Outcome.ofExcept (s.data.Get key ts) := by
  unfold Guarded.Get
  rw [withLock_result s _ (Get_body_state key ts) hfree]
  simp only [Guarded.Contains, Guarded.mapIndex, Map.Get, Map.Contains]
  split
  · rfl
  · split
    · rfl
    · split <;> rfl


/-- The loop of the statement-level `Keys` collects the keys in visiting order
and passes the struct on untouched. -/
theorem Keys_loop_fold {V : Type} (order acc : List String) (s1 : Guarded V) :
    order.foldl (fun (a : List String × Guarded V) k => (a.1 ++ [k], a.2)) (acc, s1)
      = (acc ++ order, s1) := by
  induction order generalizing acc with
  | nil => simp
  | cons k rest ih => simp [List.foldl_cons, ih]

theorem Guarded_Keys_state {V : Type} (s : Guarded V) (order : List String) :
    (s.Keys order).2 = s :=
  withRLock_state s _ (fun s1 => by simp only [Keys_loop_fold])

theorem Guarded_Keys_result {V : Type} (s : Guarded V) (order : List String)
    (hfree : s.lock = ⟨false, 0⟩) :
    (s.Keys order).1 = .returned (keysLoop order) := by
  unfold Guarded.Keys
  rw [withRLock_result s _ (fun s1 => by simp only [Keys_loop_fold]) hfree]
  simp only [Keys_loop_fold, keysLoop_eq, List.nil_append]

theorem Guarded_after_reads {V : Type} (s : Guarded V) (c : Call V) (order : List String)
    (h : c.reads = true) : s.after c order = s := by
  cases c with
  | Get k ts => exact Guarded_Get_state s k ts
  | Contains k => rfl
  | Keys => exact Guarded_Keys_state s order
  | Set k v ts => cases h
  | Remove k => cases h

theorem Guarded_run_reads {V : Type} (s : Guarded V) (steps : List (Call V × List String))
    (h : ∀ step ∈ steps, step.1.reads = true) : s.run steps = s := by
  induction steps with
  | nil => rfl
  | cons step rest ih =>
    have h1 : s.run (step :: rest) = (s.after step.1 step.2).run rest := rfl
    rw [h1, Guarded_after_reads s step.1 step.2 (h step (List.mem_cons_self _ _))]
    exact ih (fun st hst => h st (List.mem_cons_of_mem _ hst))

/-- With the lock free, the statement-level `Set` returns the result of `Map.Set`
and leaves the map of `Map.Set` with the lock free again. -/
theorem Guarded_Set_eq {V : Type} (s : Guarded V) (k : String) (v : Option V) (ts : Time)
    (hfree : s.lock = ⟨false, 0⟩) :
    s.Set k v ts = (.returned (s.data.Set k v ts).1, ⟨(s.data.Set k v ts).2, ⟨false, 0⟩⟩) := by
  unfold Guarded.Set Guarded.withLock Map.Set
  by_cases hk : k = "" <;>
    simp [hfree, RWMutex.Lock, RWMutex.Unlock, hk, Guarded.mapIndex, Guarded.mapAssign]

/-- With the lock free, the statement-level `Remove` returns the result of
`Map.Remove` and leaves the map of `Map.Remove` with the lock free again. -/
theorem Guarded_Remove_eq {V : Type} (s : Guarded V) (k : String)
    (hfree : s.lock = ⟨false, 0⟩) :
    s.Remove k = (.returned (s.data.Remove k).1, ⟨(s.data.Remove k).2, ⟨false, 0⟩⟩) := by
  unfold Guarded.Remove Guarded.withLock Map.Remove
  cases hc : s.data.Contains k <;>
    simp [hfree, RWMutex.Lock, RWMutex.Unlock, Guarded.Contains, Guarded.mapIndex,
      Guarded.mapDelete, Map.Contains] <;>
    simp_all [Map.Contains]

/-! ## The claims -/

/-- C1: on a present key whose history is sorted by timestamp, when at least one
entry is not after the query time, `Get` returns `(v, true)` where `v` is the
value of the last entry of the history whose timestamp is not after the query
(every later entry is after it, and no entry not after the query has a greater
timestamp).  In particular, with entries at `t1 < t2 < t3` holding `v1, v2, v3`,
`Get` returns `v2` for every query in `[t2, t3)` and `v3` for every query
at or after `t3`. -/
theorem Get_greatest_lower_bound {V : Type} :
    (∀ (t : Map V) (k : String) (ent : List (tuple V)) (ts : Time),
      t.timemap.lookup k = some ent → sortedByTime ent →
      (∃ e ∈ ent, e.timestamp ≤ ts) →
      ∃ (i : Nat) (hi : i < ent.length),
        (ent.get ⟨i, hi⟩).timestamp ≤ ts ∧
        (∀ j (hj : j < ent.length), i < j → ts < (ent.get ⟨j, hj⟩).timestamp) ∧
        (∀ e ∈ ent, e.timestamp ≤ ts → e.timestamp ≤ (ent.get ⟨i, hi⟩).timestamp) ∧
        t.Get k ts = .ok ((ent.get ⟨i, hi⟩).value, true)) ∧
    (∀ (t : Map V) (k : String) (t1 t2 t3 : Time) (v1 v2 v3 : Option V) (ts : Time),
      t.timemap.lookup k = some [⟨t1, v1⟩, ⟨t2, v2⟩, ⟨t3, v3⟩] → t1 < t2 → t2 < t3 →
      (t2 ≤ ts → ts < t3 → t.Get k ts = .ok (v2, true)) ∧
      (t3 ≤ ts → t.Get k ts = .ok (v3, true))) := by
  constructor
  · intro t k ent ts hk hs hex
    obtain ⟨i, hi, h1, h2, h3⟩ := exists_last_not_after ent ts hs hex
    exact ⟨i, hi, h1, h2, h3, Get_eq_of_last t k ts ent hk hs i hi h1 h2⟩
  · intro t k t1 t2 t3 v1 v2 v3 ts hk h12 h23
    have hs : sortedByTime ([⟨t1, v1⟩, ⟨t2, v2⟩, ⟨t3, v3⟩] : List (tuple V)) := by
      simp only [sortedByTime, List.pairwise_cons, List.mem_cons, List.mem_singleton,
        forall_eq_or_imp, forall_eq, List.not_mem_nil, false_implies, implies_true,
        List.Pairwise.nil, and_true]
      exact ⟨⟨le_of_lt h12, le_of_lt (lt_trans h12 h23)⟩, le_of_lt h23⟩
    constructor
    · intro h2 h3
      refine Get_eq_of_last t k ts _ hk hs 1 (by simp) h2 ?_
      intro j hj hij
      have hj3 : j < 3 := by simpa using hj
      have : j = 2 := by omega
      subst this
      exact h3
    · intro h3
      refine Get_eq_of_last t k ts _ hk hs 2 (by simp) h3 ?_
      intro j hj hij
      have hj3 : j < 3 := by simpa using hj
      omega

/-- The example scenario (`a`, `b`, `c` at times 100, 200, 300 under `"p"`)
queried at time 250: the general statement and the three-entry case. -/
theorem Get_greatest_lower_bound_witness :
    scenario.timemap.lookup "p"
      = some [⟨100, some "a"⟩, ⟨200, some "b"⟩, ⟨300, some "c"⟩] ∧
    sortedByTime ([⟨100, some "a"⟩, ⟨200, some "b"⟩, ⟨300, some "c"⟩] : List (tuple String)) ∧
    (∃ e ∈ ([⟨100, some "a"⟩, ⟨200, some "b"⟩, ⟨300, some "c"⟩] : List (tuple String)),
      e.timestamp ≤ 250) ∧
    (∃ (i : Nat) (hi : i < 3),
      (([⟨100, some "a"⟩, ⟨200, some "b"⟩, ⟨300, some "c"⟩] : List (tuple String)).get
        ⟨i, hi⟩).timestamp ≤ 250 ∧
      scenario.Get "p" 250 = .ok
        ((([⟨100, some "a"⟩, ⟨200, some "b"⟩, ⟨300, some "c"⟩] : List (tuple String)).get
          ⟨i, hi⟩).value, true)) ∧
    (100 : Time) < 200 ∧ (200 : Time) < 300 ∧ (200 : Time) ≤ 250 ∧ (250 : Time) < 300 ∧
    scenario.Get "p" 250 = .ok (some "b", true) :=
  have hs : sortedByTime
      ([⟨100, some "a"⟩, ⟨200, some "b"⟩, ⟨300, some "c"⟩] : List (tuple String)) := by decide
  have hex : ∃ e ∈ ([⟨100, some "a"⟩, ⟨200, some "b"⟩, ⟨300, some "c"⟩] : List (tuple String)),
      e.timestamp ≤ 250 := ⟨⟨100, some "a"⟩, by simp, by decide⟩
  ⟨scenario_lookup, hs, hex,
    (match Get_greatest_lower_bound.1 scenario "p" _ 250 scenario_lookup hs hex with
      | ⟨i, hi, h1, _, _, h4⟩ => ⟨i, hi, h1, h4⟩),
    by decide, by decide, by decide, by decide,
    ((Get_greatest_lower_bound.2 scenario "p" 100 200 300 (some "a") (some "b") (some "c") 250
      scenario_lookup (by decide) (by decide)).1 (by decide) (by decide))⟩

/-- C2 (fails on the code): in the example scenario key `"p"` is present and the
query time 50 is strictly before every stored timestamp, yet `Get("p", 50)` does
not return `(nil, false)`: the search boundary is zero and the code evaluates
`ent[-1]`, which panics with index out of range. -/
theorem Get_before_first_entry_panics :
    scenario.Contains "p" = true ∧
    (∀ e ∈ scenario.history "p", (50 : Time) < e.timestamp) ∧
    scenario.Get "p" 50 = .error (.indexOutOfRange (-1) 3) ∧
    scenario.Get "p" 50 ≠ .ok (none, false) := by
  have hall : ∀ e ∈ ([⟨100, some "a"⟩, ⟨200, some "b"⟩, ⟨300, some "c"⟩] : List (tuple String)),
      (50 : Time) < e.timestamp := by decide
  have hg := Get_all_after scenario "p" 50 _ scenario_lookup hall
  refine ⟨by simp [Map.Contains, scenario_lookup], ?_, hg, ?_⟩
  · simp [Map.history, scenario_lookup]
  · rw [hg]; intro h; cases h

/-- C3: for every state, every key absent from the map (the empty string
included) and every timestamp, `Get` returns `(nil, false)`. -/
theorem Get_absent_key {V : Type} (t : Map V) (k : String) (ts : Time)
    (h : t.Contains k = false) : t.Get k ts = .ok (none, false) := by
  simp [Map.Get, h]

/-- The empty key on a new map. -/
theorem Get_absent_key_witness :
    (New String).Contains "" = false ∧ (New String).Get "" 0 = .ok (none, false) :=
  ⟨by simp [Map.Contains, New_lookup], Get_absent_key (New String) "" 0
    (by simp [Map.Contains, New_lookup])⟩

/-- C4: `Get` returns the most recently set value.  For every state in which
the non-empty key `k` is absent or has a history sorted by timestamp, every
value `v` (`nil` included) and every timestamp `ts` not before the last
timestamp already stored for `k`, after `Set(k, v, ts)` every `Get(k, ts2)` with
`ts ≤ ts2` returns `(v, true)`; so a stored `nil` yields `(nil, true)`, which is
not the not-found result `(nil, false)`. -/
theorem Get_after_Set {V : Type} (t : Map V) (k : String) (v : Option V) (ts ts2 : Time)
    (hk : k ≠ "")
    (hs : t.Contains k = false ∨ sortedByTime (t.history k))
    (hlast : ∀ e, (t.history k).getLast? = some e → e.timestamp ≤ ts)
    (hq : ts ≤ ts2) :
    (t.Set k v ts).2.Get k ts2 = .ok (v, true) ∧
    (t.Set k v ts).2.Get k ts2 ≠ .ok (none, false) := by
  have hs2 : sortedByTime (t.history k) := by
    rcases hs with habs | hs
    · have : t.timemap.lookup k = none := by
        simpa [Map.Contains] using habs
      simp [Map.history, this, sortedByTime]
    · exact hs
  obtain ⟨hsorted, -⟩ := sortedByTime_append_singleton (t.history k) ⟨ts, v⟩ hs2 hlast
  have hget := Get_eq_of_last (t.Set k v ts).2 k ts2 (t.history k ++ [⟨ts, v⟩])
    (Set_lookup_self t k v ts hk) hsorted (t.history k).length (by simp)
    (by simpa using hq)
    (fun j hj hij => by simp at hj; omega)
  have hval : (t.Set k v ts).2.Get k ts2 = .ok (v, true) := by
    rw [hget]; simp
  refine ⟨hval, ?_⟩
  rw [hval]; intro h; cases h

/-- Storing `nil` under `"p"` at time 300 in the example scenario and reading at 301. -/
theorem Get_after_Set_witness :
    ("p" : String) ≠ "" ∧
    (scenario.Contains "p" = false ∨ sortedByTime (scenario.history "p")) ∧
    (∀ e, (scenario.history "p").getLast? = some e → e.timestamp ≤ 300) ∧
    (300 : Time) ≤ 301 ∧
    (scenario.Set "p" none 300).2.Get "p" 301 = .ok (none, true) ∧
    (scenario.Set "p" none 300).2.Get "p" 301 ≠ .ok (none, false) :=
  have hh : scenario.history "p" = [⟨100, some "a"⟩, ⟨200, some "b"⟩, ⟨300, some "c"⟩] := by
    simp [Map.history, scenario_lookup]
  have h1 : ("p" : String) ≠ "" := by decide
  have h2 : scenario.Contains "p" = false ∨ sortedByTime (scenario.history "p") :=
    Or.inr (by rw [hh]; decide)
  have h3 : ∀ e, (scenario.history "p").getLast? = some e → e.timestamp ≤ 300 := by
    rw [hh]; intro e he
    have : e = ⟨300, some "c"⟩ := by simpa using he.symm
    subst this; decide
  have h4 : (300 : Time) ≤ 301 := by decide
  ⟨h1, h2, h3, h4, Get_after_Set scenario "p" none 300 301 h1 h2 h3 h4⟩

/-- C5: `Set` returns false exactly when the key is the empty string, and when
it returns false the state after the call is the state before it. -/
theorem Set_false_iff_empty_key {V : Type} (t : Map V) (k : String) (v : Option V)
    (ts : Time) :
    ((t.Set k v ts).1 = false ↔ k = "") ∧
    ((t.Set k v ts).1 = false → (t.Set k v ts).2 = t) := by
  unfold Map.Set
  by_cases hk : k = "" <;> simp [hk]

/-- The empty key on the example scenario. -/
theorem Set_false_iff_empty_key_witness :
    (scenario.Set "" (some "x") 400).1 = false ∧ (scenario.Set "" (some "x") 400).2 = scenario :=
  ⟨((Set_false_iff_empty_key scenario "" (some "x") 400).1).2 rfl,
    (Set_false_iff_empty_key scenario "" (some "x") 400).2 (by simp [Map.Set])⟩

/-- C6: for a non-empty key, after `Set(k, v, ts)` the history of `k` is the
previous history (empty if `k` was absent) with the single entry `(ts, v)`
appended at the end, so the earlier entries are kept in place and the length
grows by exactly one. -/
theorem Set_appends {V : Type} (t : Map V) (k : String) (v : Option V) (ts : Time)
    (hk : k ≠ "") :
    (t.Set k v ts).2.timemap.lookup k = some (t.history k ++ [⟨ts, v⟩]) ∧
    (t.Set k v ts).2.history k = t.history k ++ [⟨ts, v⟩] ∧
    ((t.Set k v ts).2.history k).length = (t.history k).length + 1 ∧
    (t.Contains k = false → (t.Set k v ts).2.history k = [⟨ts, v⟩]) ∧
    (∀ i (hi : i < (t.history k).length),
      ((t.Set k v ts).2.history k)[i]? = some ((t.history k).get ⟨i, hi⟩)) := by
  have hl := Set_lookup_self t k v ts hk
  have hh : (t.Set k v ts).2.history k = t.history k ++ [⟨ts, v⟩] := by
    rw [Map.history, hl]; rfl
  refine ⟨hl, hh, by rw [hh]; simp, ?_, ?_⟩
  · intro habs
    have : t.timemap.lookup k = none := by simpa [Map.Contains] using habs
    rw [hh]; simp [Map.history, this]
  · intro i hi
    rw [hh, List.getElem?_append_left hi]
    simp

/-- Appending `(400, "d")` to key `"p"` of the example scenario. -/
theorem Set_appends_witness :
    ("p" : String) ≠ "" ∧
    (scenario.Set "p" (some "d") 400).2.history "p" =
      [⟨100, some "a"⟩, ⟨200, some "b"⟩, ⟨300, some "c"⟩, ⟨400, some "d"⟩] :=
  ⟨by decide, by
    rw [(Set_appends scenario "p" (some "d") 400 (by decide)).2.1]
    simp [Map.history, scenario_lookup]⟩

/-- C7: for a non-empty key, `Contains(k)` is true in the state right after
`Set(k, v, ts)`. -/
theorem Contains_after_Set {V : Type} (t : Map V) (k : String) (v : Option V) (ts : Time)
    (hk : k ≠ "") : (t.Set k v ts).2.Contains k = true := by
  simp [Map.Contains, Set_lookup_self t k v ts hk]

/-- Setting key `"name"` on a new map. -/
theorem Contains_after_Set_witness :
    ("name" : String) ≠ "" ∧ ((New String).Set "name" (some "Pavlos") 1).2.Contains "name" = true :=
  ⟨by decide, Contains_after_Set (New String) "name" (some "Pavlos") 1 (by decide)⟩

/-- C8: `Remove(k)` returns true exactly when `k` was present before the call;
in the state after the call `Contains(k)` is false and `Get(k, ts)` returns
`(nil, false)` for every `ts`, whether or not `k` was present. -/
theorem Remove_result_and_absence {V : Type} (t : Map V) (k : String) :
    ((t.Remove k).1 = true ↔ t.Contains k = true) ∧
    (t.Remove k).2.Contains k = false ∧
    (∀ ts : Time, (t.Remove k).2.Get k ts = .ok (none, false)) := by
  have hl := Remove_lookup_self t k
  refine ⟨?_, by simp [Map.Contains, hl], fun ts => Get_absent _ k ts hl⟩
  unfold Map.Remove
  cases h : t.Contains k <;> simp

/-- C9: for every key absent from the map (the empty string included),
`Remove(k)` returns false and the state after the call is the state before it. -/
theorem Remove_absent {V : Type} (t : Map V) (k : String) (h : t.Contains k = false) :
    (t.Remove k).1 = false ∧ (t.Remove k).2 = t := by
  simp [Map.Remove, h]

/-- Removing the empty key and an unknown key from the example scenario. -/
theorem Remove_absent_witness :
    scenario.Contains "" = false ∧
    (scenario.Remove "").1 = false ∧ (scenario.Remove "").2 = scenario :=
  have h : scenario.Contains "" = false := by decide
  ⟨h, Remove_absent scenario "" h⟩

/-- C10: `Keys()` returns exactly the keys currently present, each exactly once:
the call has a result, and in every result a key occurs if and only if
`Contains` is true for it and there are no duplicates.  On a new map the only
result is the empty sequence and `Contains` is false for every key. -/
theorem Keys_exactly_present {V : Type} :
    (∀ t : Map V, (∃ ks, ks ∈ t.Keys) ∧
      ∀ ks ∈ t.Keys, (∀ k, k ∈ ks ↔ t.Contains k = true) ∧ ks.Nodup) ∧
    (New V).Keys = {[]} ∧ (∀ k, (New V).Contains k = false) := by
  refine ⟨fun t => ⟨?_, ?_⟩, ?_, fun k => by simp [Map.Contains, New_lookup]⟩
  · obtain ⟨l, hl⟩ := Quot.exists_rep t.timemap.keys.val
    exact ⟨l, (mem_Keys_iff t l).mpr hl.symm⟩
  · intro ks hks
    have h := (mem_Keys_iff t ks).mp hks
    constructor
    · intro k
      have : k ∈ ks ↔ k ∈ t.timemap.keys := by
        rw [← Finset.mem_val, h]; exact Iff.rfl
      rw [this, Finmap.mem_keys, Map.Contains, Finmap.lookup_isSome]
    · have hn := t.timemap.keys.nodup
      rw [h] at hn
      exact Multiset.coe_nodup.mp hn
  · ext ks
    rw [mem_Keys_iff, Finset.mem_singleton]
    simp only [New, Finmap.keys_empty, Finset.empty_val]
    constructor
    · intro h
      exact (Multiset.coe_eq_zero ks).mp h.symm
    · rintro rfl; rfl

/-- After `Set("name", ...)` and `Set("country", ...)` on a new map, the sequence
`["country", "name"]` is a possible result of `Keys()`. -/
theorem Keys_exactly_present_witness :
    ["country", "name"] ∈
      (((New String).Set "name" (some "Pavlos") 1).2.Set "country" (some "Greece") 2).2.Keys ∧
    (∀ k, k ∈ ["country", "name"] ↔
      (((New String).Set "name" (some "Pavlos") 1).2.Set "country" (some "Greece") 2).2.Contains k
        = true) ∧
    ["country", "name"].Nodup :=
  have h : ["country", "name"] ∈
      (((New String).Set "name" (some "Pavlos") 1).2.Set "country" (some "Greece") 2).2.Keys := by
    refine mem_Keys_of_nodup _ _ (by decide) (fun k => ?_)
    rw [Contains_Set _ _ _ _ _ (by decide), Contains_Set _ _ _ _ _ (by decide)]
    simp [Map.Contains, New_lookup]
  ⟨h, (Keys_exactly_present.1 _).2 _ h⟩

/-- C11 (fails on the code): after `Set("name", ...)` followed by
`Set("country", ...)` on a new map, `Keys()` can return `["country", "name"]`,
which is not the insertion order `["name", "country"]`: the loop appends the
keys in the order of the map iteration, which is not the order of insertion. -/
theorem Keys_not_in_insertion_order :
    ((New String).Set "name" (some "Pavlos") 1).1 = true ∧
    (((New String).Set "name" (some "Pavlos") 1).2.Set "country" (some "Greece") 2).1 = true ∧
    ["country", "name"] ∈ keysScenario.Keys ∧
    ["name", "country"] ∈ keysScenario.Keys ∧
    (["country", "name"] : List String) ≠ ["name", "country"] ∧
    keysScenario.Keys ≠ {["name", "country"]} := by
  have h1 : ["country", "name"] ∈ keysScenario.Keys :=
    mem_Keys_of_nodup _ _ (by decide) (fun k => by
      rw [keysScenario_Contains]; simp)
  have h2 : ["name", "country"] ∈ keysScenario.Keys :=
    mem_Keys_of_nodup _ _ (by decide) (fun k => by
      rw [keysScenario_Contains]; simp [or_comm])
  refine ⟨by decide, by decide, h1, h2, by decide, ?_⟩
  intro h
  rw [h, Finset.mem_singleton] at h1
  exact absurd h1 (by decide)

/-- C12: mutating one key never affects another.  For keys `k ≠ k2`, what the
map holds for `k2` (presence and full history), and hence `Contains(k2)` and
`Get(k2, ts2)`, are the same before and after `Set(k, v, ts)` and before and
after `Remove(k)`. -/
theorem other_keys_unchanged {V : Type} (t : Map V) (k k2 : String) (v : Option V)
    (ts ts2 : Time) (h : k ≠ k2) :
    ((t.Set k v ts).2.timemap.lookup k2 = t.timemap.lookup k2 ∧
      (t.Set k v ts).2.history k2 = t.history k2 ∧
      (t.Set k v ts).2.Contains k2 = t.Contains k2 ∧
      (t.Set k v ts).2.Get k2 ts2 = t.Get k2 ts2) ∧
    ((t.Remove k).2.timemap.lookup k2 = t.timemap.lookup k2 ∧
      (t.Remove k).2.history k2 = t.history k2 ∧
      (t.Remove k).2.Contains k2 = t.Contains k2 ∧
      (t.Remove k).2.Get k2 ts2 = t.Get k2 ts2) := by
  have hs := Set_lookup_other t k v ts k2 (Ne.symm h)
  have hr := Remove_lookup_other t k k2 (Ne.symm h)
  exact ⟨⟨hs, by simp only [Map.history, hs], by simp only [Map.Contains, hs],
      Get_congr _ _ k2 ts2 hs⟩,
    ⟨hr, by simp only [Map.history, hr], by simp only [Map.Contains, hr],
      Get_congr _ _ k2 ts2 hr⟩⟩

/-- Setting and removing key `"q"` next to key `"p"` of the example scenario. -/
theorem other_keys_unchanged_witness :
    ("q" : String) ≠ "p" ∧
    (scenario.Set "q" (some "z") 1).2.history "p" = scenario.history "p" ∧
    (scenario.Set "q" (some "z") 1).2.Get "p" 250 = scenario.Get "p" 250 ∧
    (scenario.Remove "q").2.Get "p" 250 = scenario.Get "p" 250 :=
  have h : ("q" : String) ≠ "p" := by decide
  ⟨h, (other_keys_unchanged scenario "q" "p" (some "z") 1 250 h).1.2.1,
    (other_keys_unchanged scenario "q" "p" (some "z") 1 250 h).1.2.2.2,
    (other_keys_unchanged scenario "q" "p" (some "z") 1 250 h).2.2.2.2⟩

/-- C13: `Get`, `Contains` and `Keys` are read-only.  Run statement by
statement, each of them leaves the struct (the map with every history, and the
lock) exactly as it was, whatever it returns and also when `Get` panics; with
the lock free they return what the map holds: the result of `Get`, the presence
of the key, the keys in iteration order.  Hence after any sequence of such
calls, with no `Set` or `Remove` in between, the state is the state before and
a repeated `Get(k, ts)` ends in the identical result. -/
theorem reads_leave_state_unchanged {V : Type} (s : Guarded V) (k : String) (ts : Time) :
    (s.Get k ts).2 = s ∧ (s.Contains k).2 = s ∧ (∀ order, (s.Keys order).2 = s) ∧
    (s.lock = ⟨false, 0⟩ →
      (s.Get k ts).1 = Outcome.ofExcept (s.data.Get k ts) ∧
      (s.Contains k).1 = s.data.Contains k ∧
      (∀ order ∈ rangeOrders s.data,
        (s.Keys order).1 = .returned (keysLoop order) ∧ keysLoop order ∈ s.data.Keys)) ∧
    ((s.Get k ts).2.Get k ts).1 = (s.Get k ts).1 ∧
    (∀ steps : List (Call V × List String), (∀ step ∈ steps, step.1.reads = true) →
      s.run steps = s ∧ ((s.run steps).Get k ts).1 = (s.Get k ts).1) := by
  refine ⟨Guarded_Get_state s k ts, rfl, Guarded_Keys_state s, ?_, ?_, ?_⟩
  · intro hfree
    refine ⟨Guarded_Get_result s k ts hfree, rfl, fun order ho => ?_⟩
    exact ⟨Guarded_Keys_result s order hfree, Finset.mem_image_of_mem keysLoop ho⟩
  · rw [Guarded_Get_state]
  · intro steps h
    rw [Guarded_run_reads s steps h]
    exact ⟨rfl, rfl⟩

/-- The example scenario with a free lock: a `Get`, a `Contains` and a `Keys`,
then the `Get` again. -/
theorem reads_leave_state_unchanged_witness :
    (⟨scenario, ⟨false, 0⟩⟩ : Guarded String).lock = ⟨false, 0⟩ ∧
    (∀ step ∈ ([(.Get "p" 250, []), (.Contains "q", []), (.Keys, ["p"])] :
      List (Call String × List String)), step.1.reads = true) ∧
    ((⟨scenario, ⟨false, 0⟩⟩ : Guarded String).Get "p" 250).2 = ⟨scenario, ⟨false, 0⟩⟩ ∧
    ((⟨scenario, ⟨false, 0⟩⟩ : Guarded String).Get "p" 250).1
      = Outcome.ofExcept (scenario.Get "p" 250) ∧
    (⟨scenario, ⟨false, 0⟩⟩ : Guarded String).run
      [(.Get "p" 250, []), (.Contains "q", []), (.Keys, ["p"])] = ⟨scenario, ⟨false, 0⟩⟩ ∧
    (((⟨scenario, ⟨false, 0⟩⟩ : Guarded String).run
      [(.Get "p" 250, []), (.Contains "q", []), (.Keys, ["p"])]).Get "p" 250).1
      = ((⟨scenario, ⟨false, 0⟩⟩ : Guarded String).Get "p" 250).1 :=
  have h : ∀ step ∈ ([(.Get "p" 250, []), (.Contains "q", []), (.Keys, ["p"])] :
      List (Call String × List String)), step.1.reads = true := by
    intro step hs
    simp only [List.mem_cons, List.mem_singleton, List.not_mem_nil, or_false] at hs
    rcases hs with rfl | rfl | rfl <;> rfl
  ⟨rfl, h, (reads_leave_state_unchanged ⟨scenario, ⟨false, 0⟩⟩ "p" 250).1,
    ((reads_leave_state_unchanged ⟨scenario, ⟨false, 0⟩⟩ "p" 250).2.2.2.1 rfl).1,
    ((reads_leave_state_unchanged ⟨scenario, ⟨false, 0⟩⟩ "p" 250).2.2.2.2.2 _ h).1,
    ((reads_leave_state_unchanged ⟨scenario, ⟨false, 0⟩⟩ "p" 250).2.2.2.2.2 _ h).2⟩

/-- C14: sortedness is an invariant under monotone inserts.  In every state
reached from `New()` by a sequence of calls in which each `Set(k, v, ts)` has
`ts` not before the timestamp of the last entry then stored for `k`, the
history of every present key is sorted by timestamp in non-decreasing order. -/
theorem sorted_invariant {V : Type} (calls : List (Call V))
    (hm : monotoneFrom (New V) calls = true) (k : String) (ent : List (tuple V))
    (hk : ((New V).run calls).timemap.lookup k = some ent) : sortedByTime ent :=
  run_sorted (New V) calls hm (fun k ent h => by rw [New_lookup] at h; cases h) k ent hk

/-- The three monotone inserts of the example scenario. -/
theorem sorted_invariant_witness :
    monotoneFrom (New String)
      [.Set "p" (some "a") 100, .Set "p" (some "b") 200, .Set "p" (some "c") 300] = true ∧
    ((New String).run
      [.Set "p" (some "a") 100, .Set "p" (some "b") 200, .Set "p" (some "c") 300]).timemap.lookup
        "p" = some [⟨100, some "a"⟩, ⟨200, some "b"⟩, ⟨300, some "c"⟩] ∧
    sortedByTime ([⟨100, some "a"⟩, ⟨200, some "b"⟩, ⟨300, some "c"⟩] : List (tuple String)) :=
  have hm : monotoneFrom (New String)
      [.Set "p" (some "a") 100, .Set "p" (some "b") 200, .Set "p" (some "c") 300] = true := by
    decide
  ⟨hm, scenario_lookup, sorted_invariant _ hm "p" _ scenario_lookup⟩

/-- C15: the empty string is never a key.  In every state reached from `New()`
by a sequence of calls, `Contains("")` is false and `""` does not occur in any
result of `Keys()`; so `Remove("")` returns false and `Get("", ts)` returns
`(nil, false)`. -/
theorem empty_string_never_a_key {V : Type} (calls : List (Call V)) :
    ((New V).run calls).Contains "" = false ∧
    (∀ ks ∈ ((New V).run calls).Keys, "" ∉ ks) ∧
    (((New V).run calls).Remove "").1 = false ∧
    (∀ ts : Time, ((New V).run calls).Get "" ts = .ok (none, false)) := by
  have hl : ((New V).run calls).timemap.lookup "" = none :=
    run_preserves (fun t => t.timemap.lookup "" = none) after_empty_key (New V) calls
      (New_lookup V "")
  have hc : ((New V).run calls).Contains "" = false := by simp [Map.Contains, hl]
  refine ⟨hc, ?_, by simp [Map.Remove, hc], fun ts => Get_absent _ "" ts hl⟩
  intro ks hks hmem
  have := ((Keys_mem_iff_Contains _ ks hks) "").mp hmem
  rw [hc] at this; cases this

/-- C17: `Set` does not sort and `Get` assumes sortedness.  The three `Set` calls
on key `"p"` with timestamps 100, 300, 200 and values `a`, `b`, `c` all succeed
and leave the history in insertion order, unsorted; queried at 250, `Get`
returns `(a, true)`, although the entry with the greatest timestamp not after
250 exists and is `(200, c)`, whose value is not `a`. -/
theorem Get_on_unsorted_history :
    unsortedScenario = (New String).run
      [.Set "p" (some "a") 100, .Set "p" (some "b") 300, .Set "p" (some "c") 200] ∧
    monotoneFrom (New String)
      [.Set "p" (some "a") 100, .Set "p" (some "b") 300, .Set "p" (some "c") 200] = false ∧
    unsortedScenario.history "p" = [⟨100, some "a"⟩, ⟨300, some "b"⟩, ⟨200, some "c"⟩] ∧
    ¬ sortedByTime (unsortedScenario.history "p") ∧
    unsortedScenario.Get "p" 250 = .ok (some "a", true) ∧
    (∃ e ∈ unsortedScenario.history "p", e.timestamp ≤ 250 ∧
      (∀ x ∈ unsortedScenario.history "p", x.timestamp ≤ 250 → x.timestamp ≤ e.timestamp) ∧
      e.value = some "c") ∧
    (∀ e ∈ unsortedScenario.history "p", e.timestamp ≤ 250 →
      (∀ x ∈ unsortedScenario.history "p", x.timestamp ≤ 250 → x.timestamp ≤ e.timestamp) →
      e.value ≠ some "a") := by
  have hh : unsortedScenario.history "p"
      = [⟨100, some "a"⟩, ⟨300, some "b"⟩, ⟨200, some "c"⟩] := by
    simp [Map.history, unsortedScenario_lookup]
  refine ⟨rfl, by decide, hh, ?_, ?_, ?_, ?_⟩
  · rw [hh]; decide
  · have := Get_present_pos unsortedScenario "p" 250 _ unsortedScenario_lookup 1
      unsortedScenario_Search (by decide) (by decide)
    rw [this]; rfl
  · rw [hh]; exact ⟨⟨200, some "c"⟩, by simp, by decide, by decide, rfl⟩
  · rw [hh]; decide

/-- C18: ties go to the later insert.  On a sorted history, if the entry at
index `i` has the queried timestamp and no entry at a higher index has it, then
`Get` returns the value of the entry at `i`: among the entries sharing the
queried timestamp it is the one at the highest index, the one inserted last. -/
theorem Get_ties_return_last {V : Type} (t : Map V) (k : String) (ent : List (tuple V))
    (ts : Time) (i : Nat) (hi : i < ent.length)
    (hk : t.timemap.lookup k = some ent) (hs : sortedByTime ent)
    (hts : (ent.get ⟨i, hi⟩).timestamp = ts)
    (hlast : ∀ j (hj : j < ent.length), i < j → (ent.get ⟨j, hj⟩).timestamp ≠ ts) :
    t.Get k ts = .ok ((ent.get ⟨i, hi⟩).value, true) := by
  refine Get_eq_of_last t k ts ent hk hs i hi (le_of_eq hts) ?_
  intro j hj hij
  have hle := List.pairwise_iff_getElem.mp hs i j hi hj hij
  simp only [List.get_eq_getElem] at hts hlast ⊢
  rw [hts] at hle
  exact lt_of_le_of_ne hle (Ne.symm (hlast j hj hij))

/-- Two entries at time 200: the query at 200 returns the second one. -/
theorem Get_ties_return_last_witness :
    (⟨Finmap.singleton "p" [⟨100, some "a"⟩, ⟨200, some "b"⟩, ⟨200, some "c"⟩,
        ⟨300, some "d"⟩]⟩ : Map String).timemap.lookup "p"
      = some [⟨100, some "a"⟩, ⟨200, some "b"⟩, ⟨200, some "c"⟩, ⟨300, some "d"⟩] ∧
    sortedByTime ([⟨100, some "a"⟩, ⟨200, some "b"⟩, ⟨200, some "c"⟩, ⟨300, some "d"⟩] :
      List (tuple String)) ∧
    (⟨Finmap.singleton "p" [⟨100, some "a"⟩, ⟨200, some "b"⟩, ⟨200, some "c"⟩,
        ⟨300, some "d"⟩]⟩ : Map String).Get "p" 200 = .ok (some "c", true) :=
  ⟨Finmap.lookup_singleton_eq, by decide,
    Get_ties_return_last _ "p"
      [⟨100, some "a"⟩, ⟨200, some "b"⟩, ⟨200, some "c"⟩, ⟨300, some "d"⟩] 200 2 (by decide)
      Finmap.lookup_singleton_eq (by decide) rfl (by
        intro j hj hij
        have hj4 : j < 4 := hj
        have : j = 3 := by omega
        subst this
        show (300 : Time) ≠ 200
        decide)⟩

/-- C19: removal discards the whole history.  For every map state (every state
the public operations produce from `New()`) with key `k` present, after
`Remove(k)` followed by `Set(k, v, ts)` both calls succeed, the history of `k`
is exactly the one entry `(ts, v)`, and `Get(k, ts2)` returns `(v, true)` for
every `ts2` at or after `ts`, whatever `k` held before the removal. -/
theorem Remove_then_Set {V : Type} (calls : List (Call V)) (k : String) (v : Option V)
    (ts ts2 : Time) (hp : ((New V).run calls).Contains k = true) (hq : ts ≤ ts2) :
    (((New V).run calls).Remove k).1 = true ∧
    ((((New V).run calls).Remove k).2.Set k v ts).1 = true ∧
    ((((New V).run calls).Remove k).2.Set k v ts).2.timemap.lookup k = some [⟨ts, v⟩] ∧
    ((((New V).run calls).Remove k).2.Set k v ts).2.history k = [⟨ts, v⟩] ∧
    ((((New V).run calls).Remove k).2.Set k v ts).2.Get k ts2 = .ok (v, true) := by
  have hk : k ≠ "" := by
    rintro rfl
    have h0 := run_New_empty_key V calls
    simp [Map.Contains, h0] at hp
  have hl : ((((New V).run calls).Remove k).2.Set k v ts).2.timemap.lookup k
      = some [⟨ts, v⟩] := by
    rw [Set_lookup_self _ k v ts hk, Map.history, Remove_lookup_self]; rfl
  refine ⟨by simp [Map.Remove, hp], by simp [Map.Set, hk], hl, by simp [Map.history, hl], ?_⟩
  have := Get_eq_of_last _ k ts2 [⟨ts, v⟩] hl (by simp [sortedByTime]) 0 (by simp)
    (by simpa using hq) (fun j hj hij => by simp at hj; omega)
  rw [this]; rfl

/-- Removing key `"p"` of the example scenario and setting it again at time 5. -/
theorem Remove_then_Set_witness :
    ((New String).run
      [.Set "p" (some "a") 100, .Set "p" (some "b") 200, .Set "p" (some "c") 300]).Contains "p"
        = true ∧
    (5 : Time) ≤ 7 ∧
    ((((New String).run
      [.Set "p" (some "a") 100, .Set "p" (some "b") 200, .Set "p" (some "c") 300]).Remove
        "p").2.Set "p" (some "z") 5).2.history "p" = [⟨5, some "z"⟩] ∧
    ((((New String).run
      [.Set "p" (some "a") 100, .Set "p" (some "b") 200, .Set "p" (some "c") 300]).Remove
        "p").2.Set "p" (some "z") 5).2.Get "p" 7 = .ok (some "z", true) :=
  have h1 : ((New String).run
      [.Set "p" (some "a") 100, .Set "p" (some "b") 200, .Set "p" (some "c") 300]).Contains "p"
        = true := by decide
  have h3 : (5 : Time) ≤ 7 := by decide
  ⟨h1, h3, (Remove_then_Set _ "p" (some "z") 5 7 h1 h3).2.2.2.1,
    (Remove_then_Set _ "p" (some "z") 5 7 h1 h3).2.2.2.2⟩

/-- C20: no present key has an empty history.  In every state reached from
`New()` by a sequence of calls, every key for which `Contains` returns true has
a history of length at least one. -/
theorem present_history_nonempty {V : Type} (calls : List (Call V)) (k : String)
    (h : ((New V).run calls).Contains k = true) :
    1 ≤ (((New V).run calls).history k).length := by
  have hinv := run_preserves (fun t : Map V => ∀ k ent, t.timemap.lookup k = some ent → ent ≠ [])
    after_nonempty_histories (New V) calls
    (fun k ent h => by rw [New_lookup] at h; cases h)
  unfold Map.Contains at h
  unfold Map.history
  cases hl : ((New V).run calls).timemap.lookup k with
  | none => rw [hl] at h; cases h
  | some ent =>
    have := hinv k ent hl
    simp only [Option.getD_some]
    exact Nat.one_le_iff_ne_zero.mpr (fun h0 => this (List.length_eq_zero.mp h0))

/-- Key `"p"` after a `Set`, a `Remove` and another `Set`. -/
theorem present_history_nonempty_witness :
    ((New String).run [.Set "p" (some "a") 100, .Remove "p", .Set "p" none 5]).Contains "p"
      = true ∧
    1 ≤ (((New String).run
      [.Set "p" (some "a") 100, .Remove "p", .Set "p" none 5]).history "p").length :=
  have h : ((New String).run
      [.Set "p" (some "a") 100, .Remove "p", .Set "p" none 5]).Contains "p" = true := by decide
  ⟨h, present_history_nonempty _ "p" h⟩

end timemap
